import Mathlib

/-!
Verification development for the alpha3 self-play trainer.

The definitions below are shallow embeddings of the Python sources:
  src/alpha3/replaybuffer.py  (class ReplayBuffer)
  src/alpha3/connectk.py      (class ConnectK)
  src/alpha3/train.py         (train coordinator, _BufferedPipe, _worker)
Numeric values computed by the Python code are modelled as exact rationals
(and as reals where a logarithm is involved); numpy arrays are modelled as
total functions from indices, and the mutable objects as functional state.
The MCTS engine is imported by train.py from alpha3.a3mcts, a compiled
extension whose sources are not part of the repository; it is kept opaque
as a record of operations, with the behavioural facts needed by a theorem
taken as hypotheses modelled from the specification.
-/

namespace Alpha3

/-! ## Replay buffer (src/alpha3/replaybuffer.py) -/

/-- Embedding of class ReplayBuffer: numpy arrays become total functions,
max_size, size and oldest_index are carried verbatim. -/
structure ReplayBuffer (A B : Type) where
  maxSize : Nat
  features : Nat → A
  labels : Nat → B
  size : Nat
  oldestIndex : Nat

/-- ReplayBuffer.__init__: zero arrays (the fill values are parameters),
size 0, oldest_index 0. -/
def ReplayBuffer.new (maxSize : Nat) (f0 : A) (l0 : B) : ReplayBuffer A B :=
  ⟨maxSize, fun _ => f0, fun _ => l0, 0, 0⟩

/-- ReplayBuffer.insert: size becomes min (size+1) max_size, the row at
oldest_index is overwritten, oldest_index advances modulo max_size. -/
def ReplayBuffer.insert (b : ReplayBuffer A B) (f : A) (l : B) : ReplayBuffer A B where
  maxSize := b.maxSize
  features := fun i => if i = b.oldestIndex then f else b.features i
  labels := fun i => if i = b.oldestIndex then l else b.labels i
  size := min (b.size + 1) b.maxSize
  oldestIndex := (b.oldestIndex + 1) % b.maxSize

/-- Repeated insertion, first list element inserted first. -/
def ReplayBuffer.insertAll (b : ReplayBuffer A B) (xs : List (A × B)) : ReplayBuffer A B :=
  xs.foldl (fun acc x => acc.insert x.1 x.2) b

/-- Contract of np.random.choice(n, count, replace=False): count distinct
indices below n. -/
def npChoice (n count : Nat) (idxs : List Nat) : Prop :=
  idxs.length = count ∧ idxs.Nodup ∧ ∀ i ∈ idxs, i < n

/-- ReplayBuffer.sample: the requested size is clamped to the current size,
np.random.choice draws that many indices from the populated prefix (the
draw function stands for the random number generator), and the indexed
rows are gathered. -/
def ReplayBuffer.sample (b : ReplayBuffer A B) (n : Nat) (draw : Nat → Nat → List Nat) :
    List (A × B) :=
  (draw b.size (min n b.size)).map fun i => (b.features i, b.labels i)

theorem ReplayBuffer.insertAll_append (b : ReplayBuffer A B) (xs : List (A × B)) (x : A × B) :
    b.insertAll (xs ++ [x]) = (b.insertAll xs).insert x.1 x.2 := by
  simp [ReplayBuffer.insertAll]

theorem ReplayBuffer.maxSize_insertAll (b : ReplayBuffer A B) (xs : List (A × B)) :
    (b.insertAll xs).maxSize = b.maxSize := by
  induction xs generalizing b with
  | nil => rfl
  | cons x xs ih => simpa [ReplayBuffer.insertAll, ReplayBuffer.insert] using ih (b.insert x.1 x.2)

theorem ReplayBuffer.size_oldest_insertAll (maxSize : Nat) (f0 : A) (l0 : B)
    (xs : List (A × B)) (hm : 0 < maxSize) :
    ((ReplayBuffer.new maxSize f0 l0).insertAll xs).size = min xs.length maxSize ∧
    ((ReplayBuffer.new maxSize f0 l0).insertAll xs).oldestIndex = xs.length % maxSize := by
  induction xs using List.reverseRecOn with
  | nil => simp [ReplayBuffer.insertAll, ReplayBuffer.new, Nat.mod_eq_of_lt hm]
  | append_singleton xs x ih =>
    rw [ReplayBuffer.insertAll_append]
    refine ⟨?_, ?_⟩
    · rw [ReplayBuffer.insert, ih.1, ReplayBuffer.maxSize_insertAll]
      simp only [List.length_append, List.length_singleton, ReplayBuffer.new]
      omega
    · rw [ReplayBuffer.insert, ih.2, ReplayBuffer.maxSize_insertAll]
      simp only [List.length_append, List.length_singleton, ReplayBuffer.new]
      exact Nat.ModEq.add_right 1 (Nat.mod_modEq xs.length maxSize)

theorem ReplayBuffer.mod_ne_of_recent {i len maxSize : Nat} (_hm : 0 < maxSize)
    (hlt : i < len) (hrecent : len < i + maxSize) : i % maxSize ≠ len % maxSize := by
  intro heq
  have hdvd : maxSize ∣ len - i := (Nat.modEq_iff_dvd' (Nat.le_of_lt hlt)).mp heq
  have hle : maxSize ≤ len - i := Nat.le_of_dvd (by omega) hdvd
  omega

theorem ReplayBuffer.contents_insertAll (maxSize : Nat) (f0 : A) (l0 : B)
    (xs : List (A × B)) (hm : 0 < maxSize) :
    ∀ i (hi : i < xs.length), xs.length ≤ i + maxSize →
      ((ReplayBuffer.new maxSize f0 l0).insertAll xs).features (i % maxSize) =
          (xs.get ⟨i, hi⟩).1 ∧
      ((ReplayBuffer.new maxSize f0 l0).insertAll xs).labels (i % maxSize) =
          (xs.get ⟨i, hi⟩).2 := by
  induction xs using List.reverseRecOn with
  | nil => intro i hi; simp at hi
  | append_singleton xs x ih =>
    intro i hi hrecent
    rw [ReplayBuffer.insertAll_append]
    have holdest : ((ReplayBuffer.new maxSize f0 l0).insertAll xs).oldestIndex =
        xs.length % maxSize :=
      (ReplayBuffer.size_oldest_insertAll maxSize f0 l0 xs hm).2
    have hi1 : i < xs.length + 1 := by simpa using hi
    have hrec1 : xs.length + 1 ≤ i + maxSize := by simpa using hrecent
    rcases Nat.lt_or_ge i xs.length with hlt | hge
    · have hne : i % maxSize ≠ xs.length % maxSize :=
        ReplayBuffer.mod_ne_of_recent hm hlt (by omega)
      have hgl : (xs ++ [x]).get ⟨i, hi⟩ = xs.get ⟨i, hlt⟩ := by
        simp [List.get_eq_getElem, List.getElem_append, hlt]
      rw [hgl]
      have := ih i hlt (by omega)
      constructor
      · rw [ReplayBuffer.insert]; simp only [holdest, hne, if_false]; exact this.1
      · rw [ReplayBuffer.insert]; simp only [holdest, hne, if_false]; exact this.2
    · have hieq : i = xs.length := by omega
      subst hieq
      have hgl : (xs ++ [x]).get ⟨xs.length, hi⟩ = x := by
        simp [List.get_eq_getElem]
      rw [hgl, ReplayBuffer.insert]
      simp [holdest]

theorem ReplayBuffer.cell_witness {k maxSize idx : Nat} (hm : 0 < maxSize)
    (hidx : idx < min k maxSize) : ∃ i, i < k ∧ k ≤ i + maxSize ∧ i % maxSize = idx := by
  rcases Nat.le_total k maxSize with hk | hk
  · exact ⟨idx, by omega, by omega, Nat.mod_eq_of_lt (by omega)⟩
  · have hamod : (k - maxSize) % maxSize < maxSize := Nat.mod_lt _ hm
    have hut : (idx + maxSize - (k - maxSize) % maxSize) % maxSize < maxSize :=
      Nat.mod_lt _ hm
    refine ⟨(k - maxSize) + (idx + maxSize - (k - maxSize) % maxSize) % maxSize,
      by omega, by omega, ?_⟩
    rw [Nat.add_mod, Nat.mod_eq_of_lt hut]
    rcases Nat.lt_or_ge (idx + maxSize - (k - maxSize) % maxSize) maxSize with hlt | hge
    · rw [Nat.mod_eq_of_lt hlt]
      have hsum : (k - maxSize) % maxSize + (idx + maxSize - (k - maxSize) % maxSize) =
          idx + maxSize := by omega
      rw [hsum, Nat.add_mod_right]
      exact Nat.mod_eq_of_lt (by omega)
    · have hsub : (idx + maxSize - (k - maxSize) % maxSize) % maxSize =
          idx + maxSize - (k - maxSize) % maxSize - maxSize := by
        rw [Nat.mod_eq_sub_mod hge]
        exact Nat.mod_eq_of_lt (by omega)
      rw [hsub]
      have hsum : (k - maxSize) % maxSize +
          (idx + maxSize - (k - maxSize) % maxSize - maxSize) = idx := by omega
      rw [hsum]
      exact Nat.mod_eq_of_lt (by omega)

/-- C7. For every sequence of k inserts into a ReplayBuffer of capacity max_size,
len(buffer) = min(k, max_size); the arrays hold exactly the last min(k, max_size)
inserted (features, label) pairs, the i-th insert living at ring cell i mod max_size;
oldest_index has advanced to k mod max_size; and a subsequent sample(n), for any
index draw satisfying the np.random.choice contract, returns min(n, len) rows, each
of which is one of the last min(k, max_size) inserted pairs. -/
theorem replay_buffer_ring (maxSize : Nat) (f0 : A) (l0 : B) (xs : List (A × B))
    (hm : 0 < maxSize) (n : Nat) (draw : Nat → Nat → List Nat)
    (hdraw : npChoice ((ReplayBuffer.new maxSize f0 l0).insertAll xs).size
      (min n ((ReplayBuffer.new maxSize f0 l0).insertAll xs).size)
      (draw ((ReplayBuffer.new maxSize f0 l0).insertAll xs).size
        (min n ((ReplayBuffer.new maxSize f0 l0).insertAll xs).size))) :
    ((ReplayBuffer.new maxSize f0 l0).insertAll xs).size = min xs.length maxSize ∧
    ((ReplayBuffer.new maxSize f0 l0).insertAll xs).oldestIndex = xs.length % maxSize ∧
    (∀ i (hi : i < xs.length), xs.length ≤ i + maxSize →
      ((ReplayBuffer.new maxSize f0 l0).insertAll xs).features (i % maxSize) =
          (xs.get ⟨i, hi⟩).1 ∧
      ((ReplayBuffer.new maxSize f0 l0).insertAll xs).labels (i % maxSize) =
          (xs.get ⟨i, hi⟩).2) ∧
    (((ReplayBuffer.new maxSize f0 l0).insertAll xs).sample n draw).length =
      min n ((ReplayBuffer.new maxSize f0 l0).insertAll xs).size ∧
    ∀ r ∈ ((ReplayBuffer.new maxSize f0 l0).insertAll xs).sample n draw,
      ∃ i, ∃ hi : i < xs.length, xs.length ≤ i + maxSize ∧ r = xs.get ⟨i, hi⟩ := by
  obtain ⟨hsize, holdest⟩ := ReplayBuffer.size_oldest_insertAll maxSize f0 l0 xs hm
  refine ⟨hsize, holdest, ReplayBuffer.contents_insertAll maxSize f0 l0 xs hm, ?_, ?_⟩
  · simp only [ReplayBuffer.sample, List.length_map]
    exact hdraw.1
  · intro r hr
    simp only [ReplayBuffer.sample, List.mem_map] at hr
    obtain ⟨j, hj, hrj⟩ := hr
    have hjlt : j < min xs.length maxSize := hsize ▸ hdraw.2.2 j hj
    obtain ⟨i, hik, hrecent, hmod⟩ := ReplayBuffer.cell_witness hm hjlt
    obtain ⟨hf, hl⟩ := ReplayBuffer.contents_insertAll maxSize f0 l0 xs hm i hik hrecent
    refine ⟨i, hik, hrecent, ?_⟩
    rw [← hrj, ← hmod]
    exact Prod.ext hf hl

/-- Witness for C7: capacity 3, five inserts, spec scenario 4. After the
inserts the length is 3, cell 0 holds the fourth inserted pair, and an
oversized sample request returns exactly 3 rows. -/
theorem replay_buffer_ring_witness :
    ((ReplayBuffer.new 3 (0 : Int) (0 : Int)).insertAll
        [(1, 1), (2, 2), (3, 3), (4, 4), (5, 5)]).size = 3 ∧
    ((ReplayBuffer.new 3 (0 : Int) (0 : Int)).insertAll
        [(1, 1), (2, 2), (3, 3), (4, 4), (5, 5)]).features 0 = 4 ∧
    (((ReplayBuffer.new 3 (0 : Int) (0 : Int)).insertAll
        [(1, 1), (2, 2), (3, 3), (4, 4), (5, 5)]).sample 10 (fun _ _ => [0, 2, 1])).length
      = 3 := by
  have h := replay_buffer_ring 3 (0 : Int) (0 : Int) [(1, 1), (2, 2), (3, 3), (4, 4), (5, 5)]
    (by decide) 10 (fun _ _ => [0, 2, 1]) (by simp only [npChoice]; decide)
  refine ⟨by simpa using h.1, ?_, ?_⟩
  · have hc := (h.2.2.1 3 (by decide) (by decide)).1
    simpa using hc
  · have hs := h.2.2.2.1
    rw [h.1] at hs
    simpa using hs

/-! ## ConnectK (src/alpha3/connectk.py)

The board tensor self._position of shape (2, rows, columns) becomes a total
function from (plane, row, column); plane 1 always holds the pieces of the
player who just moved. The cached self._outcome field is carried in the
structure. -/

/-- Embedding of class ConnectK. -/
structure ConnectK where
  rows : Nat
  columns : Nat
  k : Nat
  position : Nat → Nat → Nat → Bool
  outcome : Option Int

/-- ConnectK.__init__: empty board, no outcome. -/
def ConnectK.init (rows columns k : Nat) : ConnectK :=
  ⟨rows, columns, k, fun _ _ _ => false, none⟩

/-- ConnectK._occupied. -/
def ConnectK.occupied (s : ConnectK) (row column : Nat) : Bool :=
  s.position 0 row column || s.position 1 row column

/-- ConnectK.moves: empty when the cached outcome is set, else the columns
whose top cell is free, in increasing order. -/
def ConnectK.moves (s : ConnectK) : List Nat :=
  if s.outcome ≠ none then []
  else (List.range s.columns).filter (fun c => !s.occupied 0 c)

/-- The row selected by the placement loop in ConnectK.play: the first row
r (scanning down from 0) with r = rows - 1 or the cell below occupied. -/
def ConnectK.playRow (s : ConnectK) (column : Nat) : Nat :=
  (((List.range s.rows).find? (fun r => r = s.rows - 1 || s.occupied (r + 1) column)).getD
    (s.rows - 1))

/-- ConnectK._k_connected: scan for a run of k set bits. -/
def kConnectedAux (k : Nat) : Nat → List Bool → Bool
  | _, [] => false
  | run, b :: rest =>
      if b then (if k ≤ run + 1 then true else kConnectedAux k (run + 1) rest)
      else kConnectedAux k 0 rest

def kConnected (k : Nat) (v : List Bool) : Bool := kConnectedAux k 0 v

/-- The clipped window of plane-1 cells through (row, column) in direction
(dr, dc): indices i from -(k-1) to k-1, out-of-board cells skipped (as in
ConnectK._check_for_game_over). -/
def lineVector (pos : Nat → Nat → Nat → Bool) (rows columns k row column : Nat)
    (dr dc : Int) : List Bool :=
  (List.range (2 * k - 1)).filterMap (fun j =>
    let i : Int := (j : Int) - ((k : Int) - 1)
    let r : Int := (row : Int) + dr * i
    let c : Int := (column : Int) + dc * i
    if 0 ≤ r ∧ r < (rows : Int) ∧ 0 ≤ c ∧ c < (columns : Int) then
      some (pos 1 r.toNat c.toNat)
    else none)

/-- The four scan directions of ConnectK._check_for_game_over. -/
def connectKDirections : List (Int × Int) := [(1, 0), (0, 1), (1, 1), (1, -1)]

/-- The move just played at (row, column) completed a run of k plane-1 pieces
in some direction (the win test of ConnectK._check_for_game_over). -/
def winningMove (pos : Nat → Nat → Nat → Bool) (rows columns k row column : Nat) : Bool :=
  connectKDirections.any (fun d => kConnected k (lineVector pos rows columns k row column d.1 d.2))

/-- ConnectK._check_for_game_over on the post-move board: the draw test
(placed in row 0 and the whole top row occupied) runs first and returns;
only otherwise is the win test consulted. Returns the outcome it would
assign, or none when it leaves the field untouched. -/
def checkForGameOver (pos : Nat → Nat → Nat → Bool) (rows columns k row column : Nat) :
    Option Int :=
  if row = 0 ∧ (List.range columns).all (fun c => pos 0 0 c || pos 1 0 c) then some 0
  else if winningMove pos rows columns k row column then some (-1) else none

/-- The post-move board of ConnectK.play: planes flipped (np.flip on axis 0),
then the new piece set on plane 1 at the landing cell. -/
def ConnectK.playPos (s : ConnectK) (column : Nat) : Nat → Nat → Nat → Bool :=
  fun p r c =>
    if p = 1 ∧ r = s.playRow column ∧ c = column then true else s.position (1 - p) r c

/-- ConnectK.play: find the landing row, flip the planes, set the new piece
on plane 1, and run the game-over check (which otherwise leaves the copied
outcome in place). -/
def ConnectK.play (s : ConnectK) (column : Nat) : ConnectK where
  rows := s.rows
  columns := s.columns
  k := s.k
  position := s.playPos column
  outcome :=
    match checkForGameOver (s.playPos column) s.rows s.columns s.k (s.playRow column) column with
    | some o => some o
    | none => s.outcome

/-- The draw test target of _check_for_game_over: every top-row cell occupied. -/
def ConnectK.topRowFull (s : ConnectK) : Bool :=
  (List.range s.columns).all (fun c => s.occupied 0 c)

theorem ConnectK.mem_moves {s : ConnectK} {m : Nat} :
    m ∈ s.moves ↔ s.outcome = none ∧ m < s.columns ∧ s.occupied 0 m = false := by
  unfold ConnectK.moves
  by_cases h : s.outcome = none
  · simp [h, List.mem_filter, List.mem_range, and_comm]
  · simp [h]

theorem ConnectK.occupied_play (s : ConnectK) (m c : Nat) :
    (s.play m).occupied 0 c =
      (if s.playRow m = 0 ∧ c = m then true else s.occupied 0 c) := by
  simp only [ConnectK.play, ConnectK.occupied, ConnectK.playPos]
  by_cases hr : s.playRow m = 0
  · by_cases hc : c = m
    · subst hc; simp [hr]
    · simp [hr, hc, Bool.or_comm]
  · by_cases hc : c = m
    · subst hc
      simp [Ne.symm hr, Bool.or_comm]
      intro h
      exact absurd h hr
    · simp [Ne.symm hr, hc, Bool.or_comm]

/-- Counterexample to C8 (on ConnectK(1, 3, 2), plays 0, 2, 1). The final
move at column 1 is legal and completes a horizontal run of k = 2 for the
mover, but it also fills the top row, and _check_for_game_over tests the
draw condition before the win condition, so the outcome is 0 rather than
the -1 the claim requires. -/
theorem connectk_full_board_win_scored_draw :
    (1 : Nat) ∈ (((ConnectK.init 1 3 2).play 0).play 2).moves ∧
    winningMove (((((ConnectK.init 1 3 2).play 0).play 2).play 1)).position 1 3 2
      ((((ConnectK.init 1 3 2).play 0).play 2).playRow 1) 1 = true ∧
    ((((ConnectK.init 1 3 2).play 0).play 2).play 1).outcome = some 0 :=
  ⟨by decide, by decide, by decide⟩

/-- C8 (amended). For every ConnectK state s and legal move m: when the move
fills the top row the outcome is 0 even if the move completed a run of k (the
draw test runs first); when the top row is not full, the outcome is -1 exactly
when the move completed a run of k pieces for the mover in one of the four
directions, and None otherwise; and moves() of the resulting state is empty
iff its outcome is not None. -/
theorem connectk_outcome_classification (s : ConnectK) (m : Nat) (hm : m ∈ s.moves) :
    ((s.play m).topRowFull = true → (s.play m).outcome = some 0) ∧
    ((s.play m).topRowFull = false →
      winningMove (s.play m).position s.rows s.columns s.k (s.playRow m) m = true →
      (s.play m).outcome = some (-1)) ∧
    ((s.play m).topRowFull = false →
      winningMove (s.play m).position s.rows s.columns s.k (s.playRow m) m = false →
      (s.play m).outcome = none) ∧
    ((s.play m).moves = [] ↔ (s.play m).outcome ≠ none) := by
  obtain ⟨hout, hcol, hocc⟩ := ConnectK.mem_moves.mp hm
  have houtcome : (s.play m).outcome =
      match checkForGameOver (s.playPos m) s.rows s.columns s.k (s.playRow m) m with
      | some o => some o
      | none => s.outcome := rfl
  have parta : (s.play m).topRowFull = true → (s.play m).outcome = some 0 := by
    intro htr
    have hrow : s.playRow m = 0 := by
      have hoccm : (s.play m).occupied 0 m = true := by
        have hall := List.all_eq_true.mp htr
        exact hall m (List.mem_range.mpr hcol)
      rw [ConnectK.occupied_play] at hoccm
      by_cases hr : s.playRow m = 0
      · exact hr
      · rw [if_neg (fun hand => hr hand.1)] at hoccm
        rw [hoccm] at hocc
        exact absurd hocc (by simp)
    have htr2 : ((List.range s.columns).all
        (fun c => s.playPos m 0 0 c || s.playPos m 1 0 c)) = true := htr
    rw [houtcome]
    unfold checkForGameOver
    rw [if_pos ⟨hrow, htr2⟩]
  have hdrawcond : (s.play m).topRowFull = false →
      ¬(s.playRow m = 0 ∧ ((List.range s.columns).all
        (fun c => s.playPos m 0 0 c || s.playPos m 1 0 c)) = true) := by
    intro htr hand
    have : (s.play m).topRowFull = true := hand.2
    rw [this] at htr
    exact absurd htr (by simp)
  have partb : (s.play m).topRowFull = false →
      winningMove (s.play m).position s.rows s.columns s.k (s.playRow m) m = true →
      (s.play m).outcome = some (-1) := by
    intro htr hw
    have hw2 : winningMove (s.playPos m) s.rows s.columns s.k (s.playRow m) m = true := hw
    rw [houtcome]
    unfold checkForGameOver
    rw [if_neg (hdrawcond htr), if_pos hw2]
  have partc : (s.play m).topRowFull = false →
      winningMove (s.play m).position s.rows s.columns s.k (s.playRow m) m = false →
      (s.play m).outcome = none := by
    intro htr hw
    have hw2 : winningMove (s.playPos m) s.rows s.columns s.k (s.playRow m) m = false := hw
    rw [houtcome]
    unfold checkForGameOver
    rw [if_neg (hdrawcond htr), if_neg (by rw [hw2]; simp)]
    exact hout
  refine ⟨parta, partb, partc, ?_, ?_⟩
  · intro hmoves
    by_contra houtc
    have hfilter : ((List.range (s.play m).columns).filter
        (fun c => !(s.play m).occupied 0 c)) = [] := by
      rw [ConnectK.moves, if_neg (by rw [houtc]; simp)] at hmoves
      exact hmoves
    have htr : (s.play m).topRowFull = true := by
      rw [ConnectK.topRowFull, List.all_eq_true]
      intro c hc
      have := List.filter_eq_nil_iff.mp hfilter c hc
      simpa using this
    rw [parta htr] at houtc
    exact absurd houtc (by simp)
  · intro houtc
    rw [ConnectK.moves, if_pos houtc]

/-- Witness for C8: ConnectK(2, 2, 2) with the legal first move 0. The move
does not fill the top row and completes no run, so the outcome stays None
and legal moves remain. -/
theorem connectk_outcome_classification_witness :
    ((ConnectK.init 2 2 2).play 0).outcome = none ∧
    ¬(((ConnectK.init 2 2 2).play 0).moves = []) := by
  have h := connectk_outcome_classification (ConnectK.init 2 2 2) 0 (by decide)
  refine ⟨h.2.2.1 (by decide) (by decide), ?_⟩
  intro hnil
  have := h.2.2.2.mp hnil
  exact this (h.2.2.1 (by decide) (by decide))

/-! ## Coordinator evaluation servicing (src/alpha3/train.py lines 157-165)

For request i the code takes av = evaluations[i][0] and priors[move] =
evaluations[i][1 + move]; the game state is opaque here, with moves() the
list of its legal moves and play the move application. -/

/-- denom = sum(priors[move] for move in state.moves()). -/
def legalPriorSum (evalRow : Nat → ℚ) (moves : List Nat) : ℚ :=
  (moves.map (fun mv => evalRow (1 + mv))).sum

/-- The (av, expansion) pair the coordinator sends back for one serviced
EVALUATE request: av = evaluations[i][0] and expansion =
[(move, state.play(move), priors[move] / denom) for move in state.moves()]. -/
def serviceRequest {σ : Type} (evalRow : Nat → ℚ) (moves : List Nat) (play : Nat → σ) :
    ℚ × List (Nat × σ × ℚ) :=
  (evalRow 0,
    moves.map (fun m => (m, play m, evalRow (1 + m) / legalPriorSum evalRow moves)))

theorem list_sum_map_div {α : Type} (l : List α) (f : α → ℚ) (d : ℚ) :
    (l.map (fun x => f x / d)).sum = (l.map f).sum / d := by
  induction l with
  | nil => simp
  | cons a l ih => simp [ih, add_div]

/-- C3. For every serviced EVALUATE request whose evaluator priors have
nonzero sum over the legal moves, the EVALUATION carries value
evaluations[i][0]; its expansion lists exactly state.moves(), each triple
being (move, state.play(move), prior / legal-prior-sum); and the emitted
priors sum to 1. -/
theorem coordinator_evaluation_response {σ : Type} (evalRow : Nat → ℚ) (moves : List Nat)
    (play : Nat → σ) (hden : legalPriorSum evalRow moves ≠ 0) :
    (serviceRequest evalRow moves play).1 = evalRow 0 ∧
    ((serviceRequest evalRow moves play).2.map (fun t => t.1)) = moves ∧
    (serviceRequest evalRow moves play).2 =
      moves.map (fun m => (m, play m, evalRow (1 + m) / legalPriorSum evalRow moves)) ∧
    ((serviceRequest evalRow moves play).2.map (fun t => t.2.2)).sum = 1 := by
  refine ⟨rfl, ?_, rfl, ?_⟩
  · simp only [serviceRequest, List.map_map, Function.comp]
    exact List.map_id _
  · have hmap : ((serviceRequest evalRow moves play).2.map (fun t => t.2.2)) =
        moves.map (fun m => evalRow (1 + m) / legalPriorSum evalRow moves) := by
      simp [serviceRequest]
    rw [hmap, list_sum_map_div]
    exact div_self hden

/-- Witness for C3: two legal moves with priors 1 and 3; the value slot is
passed through and the normalized priors sum to 1. -/
theorem coordinator_evaluation_response_witness :
    (serviceRequest (fun j => (j : ℚ)) [0, 2] (fun m : Nat => m)).1 = 0 ∧
    ((serviceRequest (fun j => (j : ℚ)) [0, 2] (fun m : Nat => m)).2.map
      (fun t => t.2.2)).sum = 1 := by
  have h := coordinator_evaluation_response (fun j => (j : ℚ)) [0, 2] (fun m : Nat => m)
    (by norm_num [legalPriorSum])
  exact ⟨by simpa using h.1, h.2.2.2⟩

/-! ## Buffered pipes (src/alpha3/train.py class _BufferedPipe)

send appends to a local list and emits the whole batch as one wire message
once 96 entries accumulate; flush emits any partial batch. The wire field
collects the frames written to the underlying pipe, in order; the receiver
iterates the frames in order, so the delivered message stream is the
concatenation of the frames. -/

structure BufPipe (μ : Type) where
  buffer : List μ
  wire : List (List μ)

def BufPipe.empty {μ : Type} : BufPipe μ := ⟨[], []⟩

/-- _BufferedPipe.send. -/
def BufPipe.send (bp : BufPipe μ) (m : μ) : BufPipe μ :=
  if 96 ≤ (bp.buffer ++ [m]).length then ⟨[], bp.wire ++ [bp.buffer ++ [m]]⟩
  else ⟨bp.buffer ++ [m], bp.wire⟩

/-- _BufferedPipe.flush. -/
def BufPipe.flush (bp : BufPipe μ) : BufPipe μ :=
  match bp.buffer with
  | [] => bp
  | _ :: _ => ⟨[], bp.wire ++ [bp.buffer]⟩

/-- The stream of messages the peer iterates after all frames arrive. -/
def BufPipe.delivered (bp : BufPipe μ) : List μ := bp.wire.flatten

/-- Messages handed to send so far: emitted frames plus the pending buffer. -/
def BufPipe.stream (bp : BufPipe μ) : List μ := bp.wire.flatten ++ bp.buffer

theorem BufPipe.stream_send (bp : BufPipe μ) (m : μ) :
    (bp.send m).stream = bp.stream ++ [m] := by
  unfold BufPipe.send BufPipe.stream
  split <;> simp

theorem BufPipe.delivered_flush (bp : BufPipe μ) : bp.flush.delivered = bp.stream := by
  obtain ⟨buf, w⟩ := bp
  cases buf <;> simp [BufPipe.flush, BufPipe.delivered, BufPipe.stream]

theorem BufPipe.flush_flush (bp : BufPipe μ) : bp.flush.flush = bp.flush := by
  obtain ⟨buf, w⟩ := bp
  cases buf <;> simp [BufPipe.flush]

/-- The response-sending loop of the coordinator (train.py lines 157-165):
requests are enumerated in arrival order; the i-th response goes out over
the buffered pipe of the worker that sent request i. The state maps worker
pipe ids to buffered-pipe states. -/
def sendAllGo (respond : Nat → μ) : List (Nat × Nat) → (Nat → BufPipe μ) → Nat → BufPipe μ
  | [], st => st
  | e :: rest, st =>
      sendAllGo respond rest (fun p => if p = e.2 then (st e.2).send (respond e.1) else st p)

/-- The flush loop of the coordinator (train.py lines 167-168): every pipe
occurring in the request list is flushed (repeats are harmless). -/
def flushAll : List Nat → (Nat → BufPipe μ) → Nat → BufPipe μ
  | [], st => st
  | q :: rest, st => flushAll rest (fun p => if p = q then (st q).flush else st p)

/-- Per-worker delivered responses after one coordinator evaluation phase:
fresh buffered pipes, all sends in request order, then the flush loop. -/
def coordinatorDeliver (pids : List Nat) (respond : Nat → μ) (p : Nat) : List μ :=
  ((flushAll pids (sendAllGo respond pids.enum (fun _ => BufPipe.empty))) p).delivered

theorem sendAllGo_stream (respond : Nat → μ) (l : List (Nat × Nat)) (st : Nat → BufPipe μ)
    (p : Nat) : ((sendAllGo respond l st) p).stream =
      (st p).stream ++ (l.filter (fun e => e.2 = p)).map (fun e => respond e.1) := by
  induction l generalizing st with
  | nil => simp [sendAllGo]
  | cons e rest ih =>
    rw [sendAllGo, ih]
    by_cases he : e.2 = p
    · subst he
      rw [if_pos rfl, BufPipe.stream_send]
      simp
    · have hne : ¬(p = e.2) := fun hh => he hh.symm
      rw [if_neg hne]
      simp [he]

theorem flushAll_notmem (l : List Nat) (st : Nat → BufPipe μ) (p : Nat) (hp : p ∉ l) :
    (flushAll l st) p = st p := by
  induction l generalizing st with
  | nil => rfl
  | cons q rest ih =>
    rw [flushAll, ih _ (fun h => hp (List.mem_cons_of_mem q h))]
    have hne : ¬(p = q) := fun h => hp (h ▸ List.mem_cons_self q rest)
    rw [if_neg hne]

theorem flushAll_mem (l : List Nat) (st : Nat → BufPipe μ) (p : Nat) (hp : p ∈ l) :
    (flushAll l st) p = (st p).flush := by
  induction l generalizing st with
  | nil => cases hp
  | cons q rest ih =>
    rw [flushAll]
    by_cases hrest : p ∈ rest
    · rw [ih _ hrest]
      by_cases hq : p = q
      · subst hq
        rw [if_pos rfl, BufPipe.flush_flush]
      · rw [if_neg hq]
    · have hq : p = q := by
        rcases List.mem_cons.mp hp with h | h
        · exact h
        · exact absurd h hrest
      subst hq
      rw [flushAll_notmem rest _ p hrest, if_pos rfl]

theorem sendAllGo_untouched (respond : Nat → μ) (l : List (Nat × Nat)) (st : Nat → BufPipe μ)
    (p : Nat) (hl : ∀ e ∈ l, e.2 ≠ p) : (sendAllGo respond l st) p = st p := by
  induction l generalizing st with
  | nil => rfl
  | cons e rest ih =>
    rw [sendAllGo, ih _ (fun x hx => hl x (List.mem_cons_of_mem e hx))]
    have hne : ¬(p = e.2) := fun h => hl e (List.mem_cons_self e rest) h.symm
    rw [if_neg hne]

theorem snd_mem_of_mem_enum {l : List Nat} {e : Nat × Nat} (he : e ∈ l.enum) : e.2 ∈ l := by
  obtain ⟨i, a⟩ := e
  obtain ⟨hlt, heq⟩ := List.mem_enum he
  rw [heq]
  exact List.getElem_mem hlt

/-- Per-worker FIFO of the coordinator response phase: the stream delivered
to worker p is exactly the responses to the requests p issued, in the order
those requests arrived. -/
theorem coordinatorDeliver_fifo (pids : List Nat) (respond : Nat → μ) (p : Nat) :
    coordinatorDeliver pids respond p =
      (pids.enum.filter (fun e => e.2 = p)).map (fun e => respond e.1) := by
  unfold coordinatorDeliver
  by_cases hp : p ∈ pids
  · rw [flushAll_mem pids _ p hp, BufPipe.delivered_flush, sendAllGo_stream]
    simp [BufPipe.empty, BufPipe.stream]
  · rw [flushAll_notmem pids _ p hp]
    have hne : ∀ e ∈ pids.enum, e.2 ≠ p := by
      intro e he hep
      exact hp (hep ▸ snd_mem_of_mem_enum he)
    rw [sendAllGo_untouched _ _ _ _ hne]
    have hfil : (pids.enum.filter (fun e => e.2 = p)) = [] := by
      rw [List.filter_eq_nil_iff]
      intro e he
      simp only [decide_eq_true_eq]
      exact hne e he
    simp [hfil, BufPipe.empty, BufPipe.delivered]

/-! ## The worker (src/alpha3/train.py function _worker)

The MCTS engine (from alpha3.a3mcts, a compiled extension whose sources are
not in the repository) is opaque to _worker: the record below carries the
operations the worker calls, as pure state transformers over an abstract
instance type M, together with the game-state observer outcome() that the
worker applies to states returned by select_leaf. reset models
mcts.reset(config.initial_state) with the fixed initial state baked in. -/
structure MctsOps (M G L : Type) where
  complete : M → Bool
  searchesThisTurn : M → Nat
  turns : M → Nat
  moveProportional : M → M
  collectResult : M → ℚ × List (G × List (Nat × ℚ))
  reset : M → M
  addDirichletNoise : M → M
  selectLeaf : M → Option (M × L × G)
  expandLeaf : M → L → ℚ → List (Nat × G × ℚ) → M
  outcome : G → Option ℚ

/-- Messages a worker sends to the coordinator. -/
inductive WMsg (G : Type) where
  | result (score : ℚ) (history : List (G × List (Nat × ℚ)))
  | evaluate (state : G)
deriving DecidableEq

/-- Messages the coordinator sends to a worker. -/
inductive CMsg (G : Type) where
  | terminate
  | evaluation (av : ℚ) (expansion : List (Nat × G × ℚ))
deriving DecidableEq

/-- Result of the recv loop of _worker (train.py lines 290-301). terminated
records an early return on TERMINATE; applied records, in arrival order,
which parked (mcts, leaf) pair each EVALUATION was applied to. -/
structure RecvOut (M G L : Type) where
  terminated : Bool
  pendingEvaluation : List (M × L)
  pendingSelection : List M
  applied : List ((M × L) × (ℚ × List (Nat × G × ℚ)))
deriving DecidableEq

/-- The recv loop of _worker: iterate one received batch; TERMINATE returns
from the worker; each EVALUATION pops the head of pending_evaluation,
expands the parked leaf with the received value and expansion, and appends
the instance back to pending_selection. Popping an empty queue is the
IndexError case, modelled as none. -/
def recvLoop (ops : MctsOps M G L) :
    List (CMsg G) → List (M × L) → List M →
      List ((M × L) × (ℚ × List (Nat × G × ℚ))) → Option (RecvOut M G L)
  | [], q, sel, app => some ⟨false, q, sel, app⟩
  | CMsg.terminate :: _, q, sel, app => some ⟨true, q, sel, app⟩
  | CMsg.evaluation av ex :: rest, q, sel, app =>
      match q with
      | [] => none
      | ml :: q2 =>
          recvLoop ops rest q2 (sel ++ [ops.expandLeaf ml.1 ml.2 av ex])
            (app ++ [(ml, (av, ex))])

theorem recvLoop_evaluations (ops : MctsOps M G L)
    (evs : List (ℚ × List (Nat × G × ℚ))) (q : List (M × L)) (sel : List M)
    (app : List ((M × L) × (ℚ × List (Nat × G × ℚ)))) (hlen : evs.length ≤ q.length) :
    recvLoop ops (evs.map (fun e => CMsg.evaluation e.1 e.2)) q sel app =
      some ⟨false, q.drop evs.length,
        sel ++ ((q.take evs.length).zip evs).map
          (fun x => ops.expandLeaf x.1.1 x.1.2 x.2.1 x.2.2),
        app ++ (q.take evs.length).zip evs⟩ := by
  induction evs generalizing q sel app with
  | nil => simp [recvLoop]
  | cons e rest ih =>
    match q with
    | [] => simp at hlen
    | ml :: q2 =>
      simp only [List.map_cons, recvLoop]
      rw [ih q2 _ _ (by simpa using hlen)]
      simp

/-- C1. Requests and responses are paired FIFO per worker: (coordinator
side) the response stream delivered to worker p is exactly the responses,
in arrival order, to the EVALUATE requests p issued, the buffered pipe
preserving send order through its 96-message frames and final flush;
(worker side) processing a batch of EVALUATION messages applies the j-th
arriving evaluation to the j-th entry of pending_evaluation, popping heads
in FIFO order. -/
theorem evaluation_fifo_per_worker {μ M G L : Type} (ops : MctsOps M G L)
    (pids : List Nat) (respond : Nat → μ) (p : Nat)
    (evs : List (ℚ × List (Nat × G × ℚ))) (q : List (M × L)) (sel : List M)
    (hlen : evs.length ≤ q.length) :
    coordinatorDeliver pids respond p =
      (pids.enum.filter (fun e => e.2 = p)).map (fun e => respond e.1) ∧
    recvLoop ops (evs.map (fun e => CMsg.evaluation e.1 e.2)) q sel [] =
      some ⟨false, q.drop evs.length,
        sel ++ ((q.take evs.length).zip evs).map
          (fun x => ops.expandLeaf x.1.1 x.1.2 x.2.1 x.2.2),
        (q.take evs.length).zip evs⟩ :=
  ⟨coordinatorDeliver_fifo pids respond p, by
    simpa using recvLoop_evaluations ops evs q sel [] hlen⟩

/-- A minimal concrete MCTS oracle over M = Nat (the state counts the
expansions completed this turn); its game states are never terminal. -/
def opsN : MctsOps Nat Unit Unit where
  complete _ := false
  searchesThisTurn m := m
  turns _ := 0
  moveProportional _ := 0
  collectResult _ := (0, [])
  reset _ := 0
  addDirichletNoise m := m
  selectLeaf m := some (m, (), ())
  expandLeaf m _ _ _ := m + 1
  outcome _ := none

/-- Witness for C1: three requests from pipes 0, 1, 0 and one worker batch
of a single EVALUATION against a queue of one parked pair. -/
theorem evaluation_fifo_per_worker_witness :
    coordinatorDeliver [0, 1, 0] (fun i => i) 0 =
      (([0, 1, 0] : List Nat).enum.filter (fun e => e.2 = 0)).map (fun e => e.1) ∧
    recvLoop opsN ([((5 : ℚ), ([] : List (Nat × Unit × ℚ)))].map
        (fun e => CMsg.evaluation e.1 e.2)) [((3 : Nat), ())] [] [] =
      some ⟨false, [((3 : Nat), ())].drop 1,
        [] ++ (([((3 : Nat), ())].take 1).zip [((5 : ℚ), ([] : List (Nat × Unit × ℚ)))]).map
          (fun x => opsN.expandLeaf x.1.1 x.1.2 x.2.1 x.2.2),
        ([((3 : Nat), ())].take 1).zip [((5 : ℚ), ([] : List (Nat × Unit × ℚ)))]⟩ :=
  evaluation_fifo_per_worker opsN [0, 1, 0] (fun i => i) 0
    [((5 : ℚ), ([] : List (Nat × Unit × ℚ)))] [((3 : Nat), ())] [] (by decide)

/-- The two worker-loop parameters read from Config by _worker. -/
structure WorkerConfig where
  evaluations : Nat
  maxTurns : Nat

/-- Outcome of processing one dequeued MCTS instance in the drain loop of
_worker (train.py lines 254-283): the instance either goes to the requeue
list or is parked in pending_evaluation with its selected leaf; sent lists
the messages emitted for it, in order. -/
inductive StepOut (M G L : Type) where
  | requeued (m : M) (sent : List (WMsg G))
  | parked (m : M) (leaf : L) (sent : List (WMsg G))

/-- Lines 271-283 of train.py: call select_leaf; on None requeue; on a
terminal leaf state expand locally with the terminal outcome and an empty
child list (no message); otherwise send EVALUATE(game_state) and park
(mcts, leaf). -/
def selectPhase (ops : MctsOps M G L) (m : M) : StepOut M G L :=
  match ops.selectLeaf m with
  | none => StepOut.requeued m []
  | some (m2, leaf, g) =>
      match ops.outcome g with
      | some v => StepOut.requeued (ops.expandLeaf m2 leaf v []) []
      | none => StepOut.parked m2 leaf [WMsg.evaluate g]

/-- Lines 268-269 of train.py: add Dirichlet noise exactly when
searches_this_turn() == 1. -/
def noisePhase (ops : MctsOps M G L) (m : M) : M :=
  if ops.searchesThisTurn m = 1 then ops.addDirichletNoise m else m

/-- Lines 254-283 of train.py: the full processing of one dequeued
instance. When the per-turn budget is spent, commit a move; a finished
(or over-long) game is collected, reported with RESULT, reset and
requeued; otherwise fall through to the noise check and selection. -/
def stepInstance (ops : MctsOps M G L) (cfg : WorkerConfig) (m : M) : StepOut M G L :=
  if cfg.evaluations ≤ ops.searchesThisTurn m then
    let m1 := ops.moveProportional m
    if ops.complete m1 || decide (cfg.maxTurns ≤ ops.turns m1) then
      StepOut.requeued (ops.reset m1)
        [WMsg.result (ops.collectResult m1).1 (ops.collectResult m1).2]
    else selectPhase ops (noisePhase ops m1)
  else selectPhase ops (noisePhase ops m)

/-- C2. In the worker main loop, for every dequeued MCTS instance that is
still inside its evaluation budget, processing runs the selection phase on
the (possibly noised) instance, and there: select_leaf() = None requeues
the instance with nothing sent; a terminal leaf is expanded locally with
the terminal outcome and an empty child list, requeued, with no EVALUATE
sent; a non-terminal leaf sends exactly one EVALUATE(gameState) and parks
(mcts, leaf). -/
theorem worker_select_dispatch (ops : MctsOps M G L) (cfg : WorkerConfig) (m : M) :
    (ops.searchesThisTurn m < cfg.evaluations →
      stepInstance ops cfg m = selectPhase ops (noisePhase ops m)) ∧
    (ops.selectLeaf m = none → selectPhase ops m = StepOut.requeued m []) ∧
    (∀ m2 leaf g v, ops.selectLeaf m = some (m2, leaf, g) → ops.outcome g = some v →
      selectPhase ops m = StepOut.requeued (ops.expandLeaf m2 leaf v []) []) ∧
    (∀ m2 leaf g, ops.selectLeaf m = some (m2, leaf, g) → ops.outcome g = none →
      selectPhase ops m = StepOut.parked m2 leaf [WMsg.evaluate g]) := by
  refine ⟨?_, ?_, ?_, ?_⟩
  · intro h
    unfold stepInstance
    rw [if_neg (not_le.mpr h)]
  · intro h
    unfold selectPhase
    rw [h]
  · intro m2 leaf g v hsel hout
    unfold selectPhase
    rw [hsel]
    dsimp only
    rw [hout]
  · intro m2 leaf g hsel hout
    unfold selectPhase
    rw [hsel]
    dsimp only
    rw [hout]

/-- A concrete MCTS oracle exercising all three dispatch cases: at state 0
select_leaf returns None, at state 1 it returns a leaf whose game state is
terminal with outcome 5, at any other state a non-terminal leaf. -/
def opsDispatch : MctsOps Nat (Option ℚ) Unit where
  complete _ := false
  searchesThisTurn m := m
  turns _ := 0
  moveProportional _ := 0
  collectResult _ := (0, [])
  reset _ := 0
  addDirichletNoise m := m
  selectLeaf m := if m = 0 then none else if m = 1 then some (m, (), some 5) else some (m, (), none)
  expandLeaf m _ _ _ := m + 1
  outcome g := g

/-- Witness for C2: the three dispatch cases at the concrete oracle. -/
theorem worker_select_dispatch_witness :
    stepInstance opsDispatch ⟨200, 1000000⟩ 0 = StepOut.requeued 0 [] ∧
    selectPhase opsDispatch 1 = StepOut.requeued (opsDispatch.expandLeaf 1 () 5 []) [] ∧
    selectPhase opsDispatch 2 = StepOut.parked 2 () [WMsg.evaluate none] := by
  have h0 := worker_select_dispatch opsDispatch ⟨200, 1000000⟩ 0
  have h1 := worker_select_dispatch opsDispatch ⟨200, 1000000⟩ 1
  have h2 := worker_select_dispatch opsDispatch ⟨200, 1000000⟩ 2
  refine ⟨?_, ?_, ?_⟩
  · rw [h0.1 (by decide)]
    have hn : noisePhase opsDispatch 0 = 0 := rfl
    rw [hn]
    exact h0.2.1 rfl
  · exact h1.2.2.1 1 () (some 5) 5 rfl rfl
  · exact h2.2.2.2 2 () none rfl rfl

/-! ## Dirichlet noise timing (C4)

A single MCTS instance interacts with the worker loop as a sequence of
dequeues; between two dequeues the instance undergoes exactly one of:
nothing (select_leaf returned None), a local terminal expansion, or a park
followed by the coordinator evaluation and expand_leaf. turnStep collapses
the park/evaluation round trip by expanding immediately with the value and
expansion the coordinator would return (the oracle argument); the sequence
of MCTS operations applied to the instance is unchanged. A turn ends at the
dequeue that finds the budget spent and commits the move. -/

inductive TurnStepOut (M : Type) where
  | ended (m : M)
  | again (m : M) (noised : Bool)

/-- One dequeue of the instance within the current turn (train.py lines
254-283 with the budget branch ending the turn, plus the matching
EVALUATION from lines 296-299 for a parked instance). noised records
whether line 269 applied add_dirichlet_noise in this dequeue. -/
def turnStep (ops : MctsOps M G L) (cfg : WorkerConfig)
    (oracle : G → ℚ × List (Nat × G × ℚ)) (m : M) : TurnStepOut M :=
  if cfg.evaluations ≤ ops.searchesThisTurn m then
    TurnStepOut.ended (ops.moveProportional m)
  else
    match ops.selectLeaf (noisePhase ops m) with
    | none => TurnStepOut.again (noisePhase ops m) (decide (ops.searchesThisTurn m = 1))
    | some (m2, leaf, g) =>
        match ops.outcome g with
        | some v =>
            TurnStepOut.again (ops.expandLeaf m2 leaf v [])
              (decide (ops.searchesThisTurn m = 1))
        | none =>
            TurnStepOut.again (ops.expandLeaf m2 leaf (oracle g).1 (oracle g).2)
              (decide (ops.searchesThisTurn m = 1))

/-- Iterate turnStep until the turn ends, counting the dequeues in which
add_dirichlet_noise was applied. none means the fuel ran out. -/
def runTurn (ops : MctsOps M G L) (cfg : WorkerConfig)
    (oracle : G → ℚ × List (Nat × G × ℚ)) : Nat → M → Nat → Option (M × Nat)
  | 0, _, _ => none
  | fuel + 1, m, cnt =>
      match turnStep ops cfg oracle m with
      | TurnStepOut.ended m2 => some (m2, cnt)
      | TurnStepOut.again m2 noised => runTurn ops cfg oracle fuel m2 (cnt + if noised then 1 else 0)

/-- Counterexample to C4 (as stated, noise exactly once per turn): with an
evaluations budget of 1 a full turn of the concrete oracle completes (the
single search, then the move commit) and add_dirichlet_noise is applied
zero times, because the searches_this_turn == 1 check at line 268 is only
reached once the budget branch has already committed the move. -/
theorem dirichlet_noise_budget_one_skipped :
    runTurn opsN ⟨1, 1000000⟩ (fun _ => (0, [])) 2 0 0 = some (0, 0) := rfl

theorem runTurn_noise_invariant (ops : MctsOps M G L) (cfg : WorkerConfig)
    (oracle : G → ℚ × List (Nat × G × ℚ))
    (hL1 : ∀ m leaf v e,
      ops.searchesThisTurn (ops.expandLeaf m leaf v e) = ops.searchesThisTurn m + 1)
    (hL2 : ∀ m m2 leaf g, ops.selectLeaf m = some (m2, leaf, g) →
      ops.searchesThisTurn m2 = ops.searchesThisTurn m)
    (hL3 : ∀ m, ops.searchesThisTurn (ops.addDirichletNoise m) = ops.searchesThisTurn m)
    (hL4 : ∀ m, ops.selectLeaf m = none → ops.searchesThisTurn m = 0)
    (hbudget : 2 ≤ cfg.evaluations) :
    ∀ fuel (m : M) (cnt : Nat) (m2 : M) (c : Nat),
      ((ops.searchesThisTurn m ≤ 1 ∧ cnt = 0) ∨ (2 ≤ ops.searchesThisTurn m ∧ cnt = 1)) →
      runTurn ops cfg oracle fuel m cnt = some (m2, c) → c = 1 := by
  intro fuel
  induction fuel with
  | zero => intro m cnt m2 c _ hrun; simp [runTurn] at hrun
  | succ fuel ih =>
    intro m cnt m2 c hinv hrun
    rw [runTurn] at hrun
    by_cases hb : cfg.evaluations ≤ ops.searchesThisTurn m
    · unfold turnStep at hrun
      rw [if_pos hb] at hrun
      rcases hinv with ⟨hs, hc⟩ | ⟨hs, hc⟩
      · omega
      · simp only [Option.some.injEq, Prod.mk.injEq] at hrun
        omega
    · unfold turnStep at hrun
      rw [if_neg hb] at hrun
      have hnoisesearch : ops.searchesThisTurn (noisePhase ops m) = ops.searchesThisTurn m := by
        unfold noisePhase
        by_cases h1 : ops.searchesThisTurn m = 1
        · rw [if_pos h1, hL3]
        · rw [if_neg h1]
      cases hsel : ops.selectLeaf (noisePhase ops m) with
      | none =>
        have hzero : ops.searchesThisTurn (noisePhase ops m) = 0 := hL4 _ hsel
        rw [hsel] at hrun
        dsimp only at hrun
        rcases hinv with ⟨hs, hc⟩ | ⟨hs, hc⟩
        · have hs0 : ops.searchesThisTurn m = 0 := by omega
          have hnb : (decide (ops.searchesThisTurn m = 1)) = false := by
            simp [hs0]
          rw [hnb] at hrun
          exact ih _ _ _ _ (Or.inl ⟨by omega, by simpa using hc⟩) hrun
        · omega
      | some trip =>
        obtain ⟨m3, leaf, g⟩ := trip
        have hsearch3 : ops.searchesThisTurn m3 = ops.searchesThisTurn m := by
          rw [hL2 _ _ _ _ hsel, hnoisesearch]
        rw [hsel] at hrun
        dsimp only at hrun
        rcases hinv with ⟨hs, hc⟩ | ⟨hs, hc⟩
        · rcases Nat.lt_or_ge (ops.searchesThisTurn m) 1 with hs0 | hs1
          · have hs0 : ops.searchesThisTurn m = 0 := by omega
            have hnb : (decide (ops.searchesThisTurn m = 1)) = false := by simp [hs0]
            rw [hnb] at hrun
            cases hout : ops.outcome g with
            | some v =>
              rw [hout] at hrun
              dsimp only at hrun
              refine ih _ _ _ _ (Or.inl ⟨?_, by simpa using hc⟩) hrun
              rw [hL1, hsearch3]
              omega
            | none =>
              rw [hout] at hrun
              dsimp only at hrun
              refine ih _ _ _ _ (Or.inl ⟨?_, by simpa using hc⟩) hrun
              rw [hL1, hsearch3]
              omega
          · have hs1 : ops.searchesThisTurn m = 1 := by omega
            have hnb : (decide (ops.searchesThisTurn m = 1)) = true := by simp [hs1]
            rw [hnb] at hrun
            cases hout : ops.outcome g with
            | some v =>
              rw [hout] at hrun
              dsimp only at hrun
              refine ih _ _ _ _ (Or.inr ⟨?_, by simp [hc]⟩) hrun
              rw [hL1, hsearch3]
              omega
            | none =>
              rw [hout] at hrun
              dsimp only at hrun
              refine ih _ _ _ _ (Or.inr ⟨?_, by simp [hc]⟩) hrun
              rw [hL1, hsearch3]
              omega
        · have hnb : (decide (ops.searchesThisTurn m = 1)) = false := by
            simp only [decide_eq_false_iff_not]
            omega
          rw [hnb] at hrun
          cases hout : ops.outcome g with
          | some v =>
            rw [hout] at hrun
            dsimp only at hrun
            refine ih _ _ _ _ (Or.inr ⟨?_, by simpa using hc⟩) hrun
            rw [hL1, hsearch3]
            omega
          | none =>
            rw [hout] at hrun
            dsimp only at hrun
            refine ih _ _ _ _ (Or.inr ⟨?_, by simpa using hc⟩) hrun
            rw [hL1, hsearch3]
            omega

/-- C4 (amended). Provided the per-turn evaluations budget is at least 2,
over a completed turn that starts with searches_this_turn = 0 the worker
applies add_dirichlet_noise to the instance exactly once: at the first
dequeue after the first completed expansion of the turn (searches == 1) and
before any further evaluation of the turn. (With budget at most 1 the noise
is never applied — see the counterexample. The facts about
searches_this_turn and select_leaf are hypotheses modelled from the spec,
the MCTS engine being a compiled extension outside the repository.) -/
theorem dirichlet_noise_once_per_turn (ops : MctsOps M G L) (cfg : WorkerConfig)
    (oracle : G → ℚ × List (Nat × G × ℚ))
    (hL1 : ∀ m leaf v e,
      ops.searchesThisTurn (ops.expandLeaf m leaf v e) = ops.searchesThisTurn m + 1)
    (hL2 : ∀ m m2 leaf g, ops.selectLeaf m = some (m2, leaf, g) →
      ops.searchesThisTurn m2 = ops.searchesThisTurn m)
    (hL3 : ∀ m, ops.searchesThisTurn (ops.addDirichletNoise m) = ops.searchesThisTurn m)
    (hL4 : ∀ m, ops.selectLeaf m = none → ops.searchesThisTurn m = 0)
    (hbudget : 2 ≤ cfg.evaluations) (m : M) (hstart : ops.searchesThisTurn m = 0)
    (fuel : Nat) (m2 : M) (c : Nat)
    (hrun : runTurn ops cfg oracle fuel m 0 = some (m2, c)) : c = 1 :=
  runTurn_noise_invariant ops cfg oracle hL1 hL2 hL3 hL4 hbudget fuel m 0 m2 c
    (Or.inl ⟨by omega, rfl⟩) hrun

/-- Witness for C4: the concrete oracle with budget 2 completes a turn in
three dequeues and the noise count is 1. -/
theorem dirichlet_noise_once_per_turn_witness :
    runTurn opsN ⟨2, 1000000⟩ (fun _ => (0, [])) 3 0 0 = some (0, 1) ∧ (1 : Nat) = 1 := by
  refine ⟨rfl, ?_⟩
  refine dirichlet_noise_once_per_turn opsN ⟨2, 1000000⟩ (fun _ => (0, [])) ?_ ?_ ?_ ?_
    (by decide) 0 rfl 3 0 1 rfl
  · intro m leaf v e; rfl
  · intro m m2 leaf g h
    simp only [opsN, Option.some.injEq, Prod.mk.injEq] at h
    rw [← h.1]
  · intro m; rfl
  · intro m h
    simp [opsN] at h

/-! ## Worker queue conservation (C10)

Python MCTS instances are distinguished by object identity; the tag below
carries that identity through every operation the worker applies. -/

/-- Identity-tagged lift of an MCTS oracle: every operation preserves the
Nat tag. -/
def MctsOps.tagged (ops : MctsOps M G L) : MctsOps (Nat × M) G L where
  complete x := ops.complete x.2
  searchesThisTurn x := ops.searchesThisTurn x.2
  turns x := ops.turns x.2
  moveProportional x := (x.1, ops.moveProportional x.2)
  collectResult x := ops.collectResult x.2
  reset x := (x.1, ops.reset x.2)
  addDirichletNoise x := (x.1, ops.addDirichletNoise x.2)
  selectLeaf x := (ops.selectLeaf x.2).map (fun y => ((x.1, y.1), y.2.1, y.2.2))
  expandLeaf x leaf v e := (x.1, ops.expandLeaf x.2 leaf v e)
  outcome := ops.outcome

/-- The tag of the instance carried by a drain-loop step result. -/
def stepId : StepOut (Nat × M) G L → Nat
  | StepOut.requeued y _ => y.1
  | StepOut.parked y _ _ => y.1

theorem noisePhase_tagged (ops : MctsOps M G L) (x : Nat × M) :
    (noisePhase ops.tagged x).1 = x.1 := by
  unfold noisePhase
  by_cases h : ops.tagged.searchesThisTurn x = 1
  · rw [if_pos h]; rfl
  · rw [if_neg h]

theorem selectPhase_tagged_id (ops : MctsOps M G L) (x : Nat × M) :
    stepId (selectPhase ops.tagged x) = x.1 := by
  unfold selectPhase
  cases hsel : ops.tagged.selectLeaf x with
  | none => rfl
  | some trip =>
    obtain ⟨y, hy, htrip⟩ := Option.map_eq_some'.mp hsel
    obtain ⟨m2, leaf, g⟩ := trip
    have hid : m2.1 = x.1 := by
      have := congrArg (fun t => t.1.1) htrip
      simpa using this.symm
    dsimp only
    cases hout : ops.tagged.outcome g
    · simpa [stepId, MctsOps.tagged] using hid
    · simpa [stepId, MctsOps.tagged] using hid

theorem stepInstance_tagged_id (ops : MctsOps M G L) (cfg : WorkerConfig) (x : Nat × M) :
    stepId (stepInstance ops.tagged cfg x) = x.1 := by
  unfold stepInstance
  by_cases hb : cfg.evaluations ≤ ops.tagged.searchesThisTurn x
  · rw [if_pos hb]
    dsimp only
    by_cases hdone : (ops.tagged.complete (ops.tagged.moveProportional x) ||
        decide (cfg.maxTurns ≤ ops.tagged.turns (ops.tagged.moveProportional x))) = true
    · rw [if_pos hdone]
      rfl
    · rw [if_neg hdone]
      rw [selectPhase_tagged_id, noisePhase_tagged]
      rfl
  · rw [if_neg hb]
    rw [selectPhase_tagged_id, noisePhase_tagged]

/-- The tag multiset of a pending_selection queue. -/
def selIds (sel : List (Nat × M)) : Multiset Nat := (sel.map Prod.fst : List Nat)

/-- The tag multiset of a pending_evaluation queue. -/
def evIds (ev : List ((Nat × M) × L)) : Multiset Nat := (ev.map (fun x => x.1.1) : List Nat)

/-- The drain loop of _worker (train.py lines 250-285): pop every instance
from pending_selection, process it, collect requeued instances (in order)
in the requeue list and parked pairs at the tail of pending_evaluation,
and accumulate the sent messages. -/
def drainGo (ops : MctsOps M G L) (cfg : WorkerConfig) :
    List M → List M × List (M × L) × List (WMsg G) → List M × List (M × L) × List (WMsg G)
  | [], acc => acc
  | m :: rest, acc =>
      match stepInstance ops cfg m with
      | StepOut.requeued m2 sent => drainGo ops cfg rest (acc.1 ++ [m2], acc.2.1, acc.2.2 ++ sent)
      | StepOut.parked m2 leaf sent =>
          drainGo ops cfg rest (acc.1, acc.2.1 ++ [(m2, leaf)], acc.2.2 ++ sent)

def drain (ops : MctsOps M G L) (cfg : WorkerConfig) (sel : List M) :
    List M × List (M × L) × List (WMsg G) := drainGo ops cfg sel ([], [], [])

/-- One iteration of the worker main loop (train.py lines 250-301): drain
pending_selection, extend pending_evaluation with the parked pairs, flush
(the sent messages are collected), and, when pending_evaluation is
nonempty, receive and process one batch. none is the IndexError case of an
over-long batch; terminated is the return on TERMINATE. -/
inductive LoopOut (M G L : Type) where
  | next (pendingSelection : List M) (pendingEvaluation : List (M × L)) (sent : List (WMsg G))
  | terminated (sent : List (WMsg G))

def loopIter (ops : MctsOps M G L) (cfg : WorkerConfig) (sel : List M) (ev : List (M × L))
    (inbox : List (CMsg G)) : Option (LoopOut M G L) :=
  let d := drain ops cfg sel
  let ev2 := ev ++ d.2.1
  if ev2.isEmpty then some (LoopOut.next d.1 ev2 d.2.2)
  else
    match recvLoop ops inbox ev2 d.1 [] with
    | none => none
    | some r =>
        if r.terminated then some (LoopOut.terminated d.2.2)
        else some (LoopOut.next r.pendingSelection r.pendingEvaluation d.2.2)

theorem selIds_append (l1 l2 : List (Nat × M)) : selIds (l1 ++ l2) = selIds l1 + selIds l2 := by
  simp [selIds, Multiset.coe_add]

theorem evIds_append (l1 l2 : List ((Nat × M) × L)) :
    evIds (l1 ++ l2) = evIds l1 + evIds l2 := by
  simp [evIds, Multiset.coe_add]

theorem drainGo_ids (ops : MctsOps M G L) (cfg : WorkerConfig) (l : List (Nat × M)) :
    ∀ acc : List (Nat × M) × List ((Nat × M) × L) × List (WMsg G),
      selIds (drainGo ops.tagged cfg l acc).1 + evIds (drainGo ops.tagged cfg l acc).2.1 =
        selIds acc.1 + evIds acc.2.1 + selIds l := by
  induction l with
  | nil => intro acc; simp [drainGo, selIds]
  | cons x rest ih =>
    intro acc
    have hid := stepInstance_tagged_id ops cfg x
    rw [drainGo]
    cases hstep : stepInstance ops.tagged cfg x with
    | requeued m2 sent =>
      rw [hstep] at hid
      simp only [stepId] at hid
      rw [ih]
      dsimp only
      rw [selIds_append]
      have hone : selIds [m2] = {x.1} := by simp [selIds, hid]
      have hcons : selIds (x :: rest) = {x.1} + selIds rest := by
        simp [selIds, Multiset.singleton_add]
      rw [hone, hcons]
      abel
    | parked m2 leaf sent =>
      rw [hstep] at hid
      simp only [stepId] at hid
      rw [ih]
      dsimp only
      rw [evIds_append]
      have hone : evIds [(m2, leaf)] = {x.1} := by simp [evIds, hid]
      have hcons : selIds (x :: rest) = {x.1} + selIds rest := by
        simp [selIds, Multiset.singleton_add]
      rw [hone, hcons]
      abel

theorem recvLoop_ids (ops : MctsOps M G L) :
    ∀ (inbox : List (CMsg G)) (q : List ((Nat × M) × L)) (sel : List (Nat × M)) app r,
      recvLoop ops.tagged inbox q sel app = some r →
      selIds r.pendingSelection + evIds r.pendingEvaluation = selIds sel + evIds q := by
  intro inbox
  induction inbox with
  | nil =>
    intro q sel app r h
    simp only [recvLoop, Option.some.injEq] at h
    subst h
    rfl
  | cons msg rest ih =>
    intro q sel app r h
    cases msg with
    | terminate =>
      simp only [recvLoop, Option.some.injEq] at h
      subst h
      rfl
    | evaluation av ex =>
      cases q with
      | nil => simp [recvLoop] at h
      | cons ml q2 =>
        simp only [recvLoop] at h
        rw [ih q2 _ _ r h, selIds_append]
        have hone : selIds [ops.tagged.expandLeaf ml.1 ml.2 av ex] = {ml.1.1} := by
          simp [selIds, MctsOps.tagged]
        have hcons : evIds (ml :: q2) = {ml.1.1} + evIds q2 := by
          simp [evIds, Multiset.singleton_add]
        rw [hone, hcons]
        abel

theorem recvLoop_terminated (ops : MctsOps M G L) :
    ∀ (inbox : List (CMsg G)) (q : List (M × L)) (sel : List M) app r,
      recvLoop ops inbox q sel app = some r → r.terminated = true →
      CMsg.terminate ∈ inbox := by
  intro inbox
  induction inbox with
  | nil =>
    intro q sel app r h ht
    simp only [recvLoop, Option.some.injEq] at h
    subst h
    simp at ht
  | cons msg rest ih =>
    intro q sel app r h ht
    cases msg with
    | terminate => exact List.mem_cons_self _ _
    | evaluation av ex =>
      cases q with
      | nil => simp [recvLoop] at h
      | cons ml q2 =>
        simp only [recvLoop] at h
        exact List.mem_cons_of_mem _ (ih q2 _ _ r h ht)

theorem ids_card (sel : List (Nat × M)) (ev : List ((Nat × M) × L)) (K : Nat)
    (h : selIds sel + evIds ev = ↑(List.range K)) : sel.length + ev.length = K := by
  have hcard := congrArg Multiset.card h
  simpa [selIds, evIds] using hcard

/-- C10. At startup the worker puts K = worker_concurrency instances in
pending_selection and none in pending_evaluation; after every loop
iteration that continues, the multiset of instance identities across
pending_selection and pending_evaluation is still exactly the K created
at startup (each instance in exactly one queue), so the queue lengths sum
to K; consequently for K ≥ 1 the loop guard
len(pending_selection) + len(pending_evaluation) > 0 never fails, and an
iteration ends the worker only when the received batch contains
TERMINATE. -/
theorem worker_queue_conservation (ops : MctsOps M G L) (cfg : WorkerConfig) (K : Nat)
    (m0 : M) :
    (selIds ((List.range K).map (fun i => (i, m0))) +
        evIds ([] : List ((Nat × M) × L)) = ↑(List.range K)) ∧
    (∀ (sel : List (Nat × M)) (ev : List ((Nat × M) × L)) inbox sel2 ev2 sent,
      selIds sel + evIds ev = ↑(List.range K) →
      loopIter ops.tagged cfg sel ev inbox = some (LoopOut.next sel2 ev2 sent) →
      selIds sel2 + evIds ev2 = ↑(List.range K) ∧ sel2.length + ev2.length = K) ∧
    (∀ (sel : List (Nat × M)) (ev : List ((Nat × M) × L)),
      selIds sel + evIds ev = ↑(List.range K) → 1 ≤ K → 0 < sel.length + ev.length) ∧
    (∀ (sel : List (Nat × M)) (ev : List ((Nat × M) × L)) inbox sent,
      loopIter ops.tagged cfg sel ev inbox = some (LoopOut.terminated sent) →
      CMsg.terminate ∈ inbox) := by
  have hdrain : ∀ sel : List (Nat × M),
      selIds (drain ops.tagged cfg sel).1 + evIds (drain ops.tagged cfg sel).2.1 =
        selIds sel := by
    intro sel
    have := drainGo_ids ops cfg sel ([], [], [])
    simpa [drain, selIds, evIds] using this
  refine ⟨?_, ?_, ?_, ?_⟩
  · simp only [selIds, evIds, List.map_nil, List.map_map]
    have hcomp : (Prod.fst ∘ fun i : Nat => (i, m0)) = id := rfl
    rw [hcomp, List.map_id]
    simp
  · intro sel ev inbox sel2 ev2 sent hinv hloop
    simp only [loopIter] at hloop
    by_cases hemp : (ev ++ (drain ops.tagged cfg sel).2.1).isEmpty
    · rw [if_pos hemp] at hloop
      simp only [Option.some.injEq, LoopOut.next.injEq] at hloop
      obtain ⟨h1, h2, h3⟩ := hloop
      subst h1; subst h2
      have hnew : selIds (drain ops.tagged cfg sel).1 +
          evIds (ev ++ (drain ops.tagged cfg sel).2.1) = ↑(List.range K) := by
        rw [evIds_append, ← hinv, ← hdrain sel]
        abel
      exact ⟨hnew, ids_card _ _ _ hnew⟩
    · rw [if_neg hemp] at hloop
      cases hr : recvLoop ops.tagged inbox (ev ++ (drain ops.tagged cfg sel).2.1)
          (drain ops.tagged cfg sel).1 [] with
      | none => rw [hr] at hloop; simp at hloop
      | some r =>
        rw [hr] at hloop
        dsimp only at hloop
        by_cases hterm : r.terminated
        · rw [if_pos hterm] at hloop
          simp at hloop
        · rw [if_neg hterm] at hloop
          simp only [Option.some.injEq, LoopOut.next.injEq] at hloop
          obtain ⟨h1, h2, h3⟩ := hloop
          subst h1; subst h2
          have hnew : selIds r.pendingSelection + evIds r.pendingEvaluation =
              ↑(List.range K) := by
            rw [recvLoop_ids ops inbox _ _ _ r hr, evIds_append, ← hinv, ← hdrain sel]
            abel
          exact ⟨hnew, ids_card _ _ _ hnew⟩
  · intro sel ev hinv hK
    have := ids_card _ _ _ hinv
    omega
  · intro sel ev inbox sent hloop
    simp only [loopIter] at hloop
    by_cases hemp : (ev ++ (drain ops.tagged cfg sel).2.1).isEmpty
    · rw [if_pos hemp] at hloop
      simp at hloop
    · rw [if_neg hemp] at hloop
      cases hr : recvLoop ops.tagged inbox (ev ++ (drain ops.tagged cfg sel).2.1)
          (drain ops.tagged cfg sel).1 [] with
      | none => rw [hr] at hloop; simp at hloop
      | some r =>
        rw [hr] at hloop
        dsimp only at hloop
        by_cases hterm : r.terminated
        · exact recvLoop_terminated ops.tagged inbox _ _ _ r hr hterm
        · rw [if_neg hterm] at hloop
          simp at hloop

/-- Witness for C10: a single instance (K = 1), one loop iteration in which
the instance is parked for evaluation and the arriving EVALUATION expands it
back into pending_selection; the identity multiset stays that of range 1. -/
theorem worker_queue_conservation_witness :
    loopIter (MctsOps.tagged opsN) ⟨2, 10⟩ [(0, 0)] [] [CMsg.evaluation 0 []] =
      some (LoopOut.next [(0, 1)] [] [WMsg.evaluate ()]) ∧
    selIds [((0 : Nat), (1 : Nat))] + evIds ([] : List ((Nat × Nat) × Unit)) =
      ↑(List.range 1) ∧
    ([((0 : Nat), (1 : Nat))].length + ([] : List ((Nat × Nat) × Unit)).length = 1) := by
  have h := (worker_queue_conservation opsN ⟨2, 10⟩ 1 0).2.1 [(0, 0)] []
    [CMsg.evaluation 0 []] [(0, 1)] [] [WMsg.evaluate ()] (by decide) rfl
  exact ⟨rfl, h.1, h.2⟩

/-! ## RESULT ingestion (src/alpha3/train.py lines 107-141)

The label vector np.zeros(label_shape) becomes a total function from slot
index; game states are opaque, with position() an abstract map into the
feature type. -/

/-- Lines 112-122: classify the reported score as 0, +1 or -1. -/
def normalizeScore (score : ℚ) : ℚ :=
  if |score| < 1 / 100000 then 0 else if 0 < score then 1 else -1

/-- Single-slot write into a label vector. -/
def updateAt (lab : Nat → ℚ) (j : Nat) (v : ℚ) : Nat → ℚ :=
  fun t => if t = j then v else lab t

/-- Lines 127-132 with empty search probabilities: label[0] = score, then
label[i] = 1/(label_shape - 1) for i in range(1, label_shape). -/
def uniformLabel (ls : Nat) (score : ℚ) : Nat → ℚ :=
  (List.range' 1 (ls - 1)).foldl
    (fun lab j => updateAt lab j (1 / ((ls - 1 : Nat) : ℚ)))
    (updateAt (fun _ => 0) 0 score)

/-- Lines 127-128 and 133-135: label[0] = score, then
label[1 + move] = probability for each recorded pair. -/
def probsLabel (_ls : Nat) (score : ℚ) (sp : List (Nat × ℚ)) : Nat → ℚ :=
  sp.foldl (fun lab mp => updateAt lab (1 + mp.1) mp.2)
    (updateAt (fun _ => 0) 0 score)

/-- The label of one history turn (the branch at line 130). ls is unused in
the nonempty branch beyond slot addressing, exactly as in the code. -/
def makeLabel (ls : Nat) (score : ℚ) (sp : List (Nat × ℚ)) : Nat → ℚ :=
  match sp with
  | [] => uniformLabel ls score
  | _ :: _ => probsLabel ls score sp

/-- Lines 124-141 after score classification: one (position, label) pair is
inserted per history turn, in order, and the score is negated after each
insertion. -/
def processResult {G P : Type} (posOf : G → P) (ls : Nat) :
    ℚ → List (G × List (Nat × ℚ)) → List (P × (Nat → ℚ))
  | _, [] => []
  | sc, (g, sp) :: rest => (posOf g, makeLabel ls sc sp) :: processResult posOf ls (-sc) rest

/-- The full RESULT(score, history) ingestion. -/
def ingestResult {G P : Type} (posOf : G → P) (ls : Nat) (score : ℚ)
    (history : List (G × List (Nat × ℚ))) : List (P × (Nat → ℚ)) :=
  processResult posOf ls (normalizeScore score) history

/-- np.sum(label[1:]) of the assertion at line 137. -/
def policySum (ls : Nat) (lab : Nat → ℚ) : ℚ := ((List.range' 1 (ls - 1)).map lab).sum

theorem makeLabel_nil (ls : Nat) (sc : ℚ) : makeLabel ls sc [] = uniformLabel ls sc := rfl

theorem makeLabel_cons (ls : Nat) (sc : ℚ) (a : Nat × ℚ) (rest : List (Nat × ℚ)) :
    makeLabel ls sc (a :: rest) = probsLabel ls sc (a :: rest) := rfl

theorem foldl_update_const (l : List Nat) (v : ℚ) :
    ∀ (lab : Nat → ℚ) (t : Nat),
      (l.foldl (fun lab j => updateAt lab j v) lab) t = if t ∈ l then v else lab t := by
  induction l with
  | nil => intro lab t; simp
  | cons a l ih =>
    intro lab t
    rw [List.foldl_cons, ih]
    by_cases ht : t ∈ l
    · simp [ht]
    · by_cases hta : t = a
      · simp [ht, hta, updateAt]
      · simp [ht, hta, updateAt]

theorem foldl_update_not_mem (sp : List (Nat × ℚ)) :
    ∀ (lab : Nat → ℚ) (t : Nat), t ∉ sp.map (fun mp => 1 + mp.1) →
      (sp.foldl (fun lab mp => updateAt lab (1 + mp.1) mp.2) lab) t = lab t := by
  induction sp with
  | nil => intro lab t _; rfl
  | cons a rest ih =>
    intro lab t ht
    rw [List.foldl_cons, ih]
    · have hne : t ≠ 1 + a.1 := by
        intro h
        exact ht (by simp [h])
      simp [updateAt, hne]
    · intro h
      exact ht (by simp [List.mem_cons]; right; simpa using h)

theorem foldl_update_mem (sp : List (Nat × ℚ)) :
    ∀ (lab : Nat → ℚ) (mv : Nat) (p : ℚ), (sp.map Prod.fst).Nodup → (mv, p) ∈ sp →
      (sp.foldl (fun lab mp => updateAt lab (1 + mp.1) mp.2) lab) (1 + mv) = p := by
  induction sp with
  | nil => intro lab mv p _ h; cases h
  | cons a rest ih =>
    intro lab mv p hnd hmem
    have hndr : (rest.map Prod.fst).Nodup := (List.nodup_cons.mp hnd).2
    rcases List.mem_cons.mp hmem with heq | hmem2
    · subst heq
      rw [List.foldl_cons]
      rw [foldl_update_not_mem]
      · simp [updateAt]
      · intro h
        obtain ⟨mp, hmp, hmpe⟩ := List.mem_map.mp h
        have hmv : mv ∈ rest.map Prod.fst := by
          have heq2 : mv = mp.1 := by omega
          rw [heq2]
          exact List.mem_map_of_mem Prod.fst hmp
        exact (List.nodup_cons.mp hnd).1 hmv
    · rw [List.foldl_cons]
      exact ih _ mv p hndr hmem2

theorem sum_map_update (l : List Nat) (t : Nat) (lab : Nat → ℚ) (v : ℚ) :
    l.Nodup → t ∈ l →
      (l.map (updateAt lab t v)).sum = (l.map lab).sum - lab t + v := by
  induction l with
  | nil => intro _ h; cases h
  | cons a rest ih =>
    intro hnd hmem
    rcases List.mem_cons.mp hmem with heq | hmem2
    · subst heq
      have hnmem : t ∉ rest := (List.nodup_cons.mp hnd).1
      simp only [List.map_cons, List.sum_cons]
      have hrest : rest.map (updateAt lab t v) = rest.map lab := by
        apply List.map_congr_left
        intro j hj
        have : j ≠ t := fun h => hnmem (h ▸ hj)
        simp [updateAt, this]
      rw [hrest]
      simp [updateAt]
      ring
    · have hne : a ≠ t := by
        intro h
        exact (List.nodup_cons.mp hnd).1 (h ▸ hmem2)
      simp only [List.map_cons, List.sum_cons]
      rw [ih (List.nodup_cons.mp hnd).2 hmem2]
      have hu : updateAt lab t v a = lab a := by simp [updateAt, hne]
      rw [hu]
      ring

theorem mem_policy_range {t ls : Nat} (h1 : 1 ≤ t) (hls : t < ls) :
    t ∈ List.range' 1 (ls - 1) := by
  rw [List.mem_range'_1]
  omega

theorem policySum_update (ls t : Nat) (lab : Nat → ℚ) (v : ℚ) (h1 : 1 ≤ t) (hls : t < ls) :
    policySum ls (updateAt lab t v) = policySum ls lab - lab t + v := by
  unfold policySum
  exact sum_map_update _ t lab v (List.nodup_range' 1 (ls - 1)) (mem_policy_range h1 hls)

theorem policySum_slot0_only (ls : Nat) (sc : ℚ) :
    policySum ls (updateAt (fun _ => 0) 0 sc) = 0 := by
  unfold policySum
  apply List.sum_eq_zero
  intro x hx
  obtain ⟨j, hj, rfl⟩ := List.mem_map.mp hx
  have hj1 : 1 ≤ j := (List.mem_range'_1.mp hj).1
  have hne : j ≠ 0 := by omega
  simp [updateAt, hne]

theorem uniformLabel_zero (ls : Nat) (sc : ℚ) : uniformLabel ls sc 0 = sc := by
  unfold uniformLabel
  rw [foldl_update_const]
  have hni : (0 : Nat) ∉ List.range' 1 (ls - 1) := by
    rw [List.mem_range'_1]
    omega
  simp [hni, updateAt]

theorem probsLabel_zero (ls : Nat) (sc : ℚ) (sp : List (Nat × ℚ)) :
    probsLabel ls sc sp 0 = sc := by
  unfold probsLabel
  rw [foldl_update_not_mem]
  · simp [updateAt]
  · intro h
    obtain ⟨mp, _, hmpe⟩ := List.mem_map.mp h
    omega

theorem makeLabel_zero (ls : Nat) (sc : ℚ) (sp : List (Nat × ℚ)) :
    makeLabel ls sc sp 0 = sc := by
  cases sp with
  | nil => rw [makeLabel_nil]; exact uniformLabel_zero ls sc
  | cons a rest => rw [makeLabel_cons]; exact probsLabel_zero ls sc (a :: rest)

theorem uniformLabel_val (ls j : Nat) (sc : ℚ) (h1 : 1 ≤ j) (hj : j < ls) :
    uniformLabel ls sc j = 1 / ((ls - 1 : Nat) : ℚ) := by
  unfold uniformLabel
  rw [foldl_update_const]
  simp [mem_policy_range h1 hj]

theorem makeLabel_prob (ls : Nat) (sc : ℚ) (sp : List (Nat × ℚ)) (mv : Nat) (p : ℚ)
    (hnd : (sp.map Prod.fst).Nodup) (hmem : (mv, p) ∈ sp) :
    makeLabel ls sc sp (1 + mv) = p := by
  cases sp with
  | nil => cases hmem
  | cons a rest =>
    rw [makeLabel_cons]
    exact foldl_update_mem _ _ mv p hnd hmem

theorem policySum_uniform (ls : Nat) (hls : 2 ≤ ls) (sc : ℚ) :
    policySum ls (uniformLabel ls sc) = 1 := by
  unfold policySum
  have hval : (List.range' 1 (ls - 1)).map (uniformLabel ls sc) =
      (List.range' 1 (ls - 1)).map (fun _ => 1 / ((ls - 1 : Nat) : ℚ)) := by
    apply List.map_congr_left
    intro j hj
    have hj2 := List.mem_range'_1.mp hj
    exact uniformLabel_val ls j sc hj2.1 (by omega)
  rw [hval, List.map_const', List.sum_replicate]
  have hlen : (List.range' 1 (ls - 1)).length = ls - 1 := by simp
  rw [hlen, nsmul_eq_mul, mul_one_div]
  exact div_self (Nat.cast_ne_zero.mpr (by omega))

theorem policySum_probs (ls : Nat) (sp : List (Nat × ℚ)) :
    ∀ lab : Nat → ℚ, (sp.map Prod.fst).Nodup → (∀ mp ∈ sp, 1 + mp.1 < ls) →
      (∀ mp ∈ sp, lab (1 + mp.1) = 0) →
      policySum ls (sp.foldl (fun lab mp => updateAt lab (1 + mp.1) mp.2) lab) =
        policySum ls lab + (sp.map Prod.snd).sum := by
  induction sp with
  | nil => intro lab _ _ _; simp
  | cons a rest ih =>
    intro lab hnd hbound hzero
    rw [List.foldl_cons]
    rw [ih _ (List.nodup_cons.mp hnd).2
      (fun mp hmp => hbound mp (List.mem_cons_of_mem a hmp)) ?hz]
    case hz =>
      intro mp hmp
      have hne : 1 + mp.1 ≠ 1 + a.1 := by
        intro h
        have heq : mp.1 = a.1 := by omega
        have hmv : a.1 ∈ rest.map Prod.fst := by
          rw [← heq]
          exact List.mem_map_of_mem Prod.fst hmp
        exact (List.nodup_cons.mp hnd).1 hmv
      rw [updateAt]
      simp only [hne, if_false]
      exact hzero mp (List.mem_cons_of_mem a hmp)
    rw [policySum_update ls (1 + a.1) lab a.2 (by omega)
      (hbound a (List.mem_cons_self a rest))]
    rw [hzero a (List.mem_cons_self a rest)]
    simp only [List.map_cons, List.sum_cons]
    ring

theorem policySum_probsLabel (ls : Nat) (sc : ℚ) (sp : List (Nat × ℚ))
    (hnd : (sp.map Prod.fst).Nodup) (hbound : ∀ mp ∈ sp, 1 + mp.1 < ls)
    (hsum : (sp.map Prod.snd).sum = 1) :
    policySum ls (probsLabel ls sc sp) = 1 := by
  unfold probsLabel
  rw [policySum_probs ls sp _ hnd hbound (fun mp _ => by simp [updateAt])]
  rw [policySum_slot0_only, hsum]
  ring

theorem processResult_length {G P : Type} (posOf : G → P) (ls : Nat) :
    ∀ (sc : ℚ) (history : List (G × List (Nat × ℚ))),
      (processResult posOf ls sc history).length = history.length := by
  intro sc history
  induction history generalizing sc with
  | nil => rfl
  | cons t rest ih =>
    obtain ⟨g, sp⟩ := t
    simp [processResult, ih]

theorem processResult_get {G P : Type} (posOf : G → P) (ls : Nat) :
    ∀ (history : List (G × List (Nat × ℚ))) (sc : ℚ) (i : Nat) (hi : i < history.length),
      (processResult posOf ls sc history).get
          ⟨i, by rw [processResult_length]; exact hi⟩ =
        (posOf (history.get ⟨i, hi⟩).1,
          makeLabel ls ((-1) ^ i * sc) (history.get ⟨i, hi⟩).2) := by
  intro history
  induction history with
  | nil => intro sc i hi; simp at hi
  | cons t rest ih =>
    intro sc i hi
    obtain ⟨g, sp⟩ := t
    cases i with
    | zero => simp [processResult]
    | succ j =>
      have hj : j < rest.length := by simpa using hi
      have hrec := ih (-sc) j hj
      simp only [processResult, List.get_cons_succ]
      rw [hrec]
      have hsign : (-1 : ℚ) ^ j * -sc = (-1) ^ (j + 1) * sc := by ring
      rw [hsign]

/-- C5. When the coordinator processes RESULT(score, history), it inserts
one buffer example per history turn in order; the label of turn i carries
the classified score times (-1)^i in slot 0 (the score being negated after
each insertion); a turn with search probabilities stores each probability
at slot 1 + move, a turn without them stores the uniform value over the
M - 1 non-outcome slots; and in both cases the policy portion of the label
(slots 1 onward) sums to 1. -/
theorem result_label_construction {G P : Type} (posOf : G → P) (ls : Nat) (score : ℚ)
    (history : List (G × List (Nat × ℚ))) (hls : 2 ≤ ls)
    (hturns : ∀ t ∈ history, t.2 = [] ∨
      ((t.2.map Prod.fst).Nodup ∧ (∀ mp ∈ t.2, 1 + mp.1 < ls) ∧
        (t.2.map Prod.snd).sum = 1)) :
    (ingestResult posOf ls score history).length = history.length ∧
    ∀ i (hi : i < history.length),
      (ingestResult posOf ls score history).get
          ⟨i, by rw [ingestResult, processResult_length]; exact hi⟩ =
        (posOf (history.get ⟨i, hi⟩).1,
          makeLabel ls ((-1) ^ i * normalizeScore score) (history.get ⟨i, hi⟩).2) ∧
      makeLabel ls ((-1) ^ i * normalizeScore score) (history.get ⟨i, hi⟩).2 0 =
        (-1) ^ i * normalizeScore score ∧
      ((history.get ⟨i, hi⟩).2 = [] → ∀ j, 1 ≤ j → j < ls →
        makeLabel ls ((-1) ^ i * normalizeScore score) (history.get ⟨i, hi⟩).2 j =
          1 / ((ls - 1 : Nat) : ℚ)) ∧
      (∀ mv p, (mv, p) ∈ (history.get ⟨i, hi⟩).2 →
        makeLabel ls ((-1) ^ i * normalizeScore score) (history.get ⟨i, hi⟩).2 (1 + mv) = p) ∧
      policySum ls (makeLabel ls ((-1) ^ i * normalizeScore score)
        (history.get ⟨i, hi⟩).2) = 1 := by
  refine ⟨processResult_length posOf ls _ history, ?_⟩
  intro i hi
  have hget := processResult_get posOf ls history (normalizeScore score) i hi
  have hmem : history.get ⟨i, hi⟩ ∈ history := history.get_mem _ _
  have hturn := hturns _ hmem
  refine ⟨hget, makeLabel_zero _ _ _, ?_, ?_, ?_⟩
  · intro hempty j hj1 hj2
    rw [hempty, makeLabel_nil]
    exact uniformLabel_val ls j _ hj1 hj2
  · intro mv p hmemp
    rcases hturn with hempty | ⟨hnd, _, _⟩
    · rw [hempty] at hmemp; cases hmemp
    · exact makeLabel_prob ls _ _ mv p hnd hmemp
  · rcases hturn with hempty | ⟨hnd, hbound, hsum⟩
    · rw [hempty, makeLabel_nil]
      exact policySum_uniform ls hls _
    · cases hsp : (history.get ⟨i, hi⟩).2 with
      | nil =>
        rw [makeLabel_nil]
        exact policySum_uniform ls hls _
      | cons a rest =>
        rw [makeLabel_cons]
        rw [hsp] at hnd hbound hsum
        exact policySum_probsLabel ls _ (a :: rest) hnd hbound hsum

/-- Witness for C5: label shape 3 (one outcome slot, two move slots), a won
game of two turns, the first with the full probability on move 0, the
second with no search probabilities. -/
theorem result_label_construction_witness :
    (ingestResult (fun g : Nat => g) 3 1 [(7, [(0, 1)]), (9, [])]).length = 2 ∧
    makeLabel 3 ((-1) ^ 1 * normalizeScore 1) [] 0 = (-1) ^ 1 * normalizeScore 1 ∧
    policySum 3 (makeLabel 3 ((-1) ^ 1 * normalizeScore 1) []) = 1 := by
  have h := result_label_construction (fun g : Nat => g) 3 1 [(7, [(0, 1)]), (9, [])]
    (by norm_num) ?hturns
  case hturns =>
    intro t ht
    rcases List.mem_cons.mp ht with rfl | ht2
    · right
      refine ⟨by decide, ?_, by simp⟩
      intro mp hmp
      rcases List.mem_cons.mp hmp with rfl | h2
      · norm_num
      · cases h2
    · rcases List.mem_cons.mp ht2 with rfl | h3
      · left; rfl
      · cases h3
  obtain ⟨hg, hz, hu, hp, hsum⟩ := h.2 1 (by norm_num)
  exact ⟨h.1, hz, hsum⟩

/-! ## Training-step loss (src/alpha3/train.py lines 188-197) -/

/-- Categorical cross-entropy, -(sum over classes of yTrue * log yPred),
with the mathlib convention log 0 = 0 standing in for the clipping of the
tensorflow implementation. The first argument of
tf.keras.losses.categorical_crossentropy is y_true, the second y_pred. -/
noncomputable def categoricalCrossentropy (M : Nat) (yTrue yPred : Nat → ℝ) : ℝ :=
  -(∑ j ∈ Finset.range M, yTrue j * Real.log (yPred j))

/-- The loss computed at lines 191-197: squared error on column 0 summed
over the batch, plus categorical_crossentropy called with predictions as
its first argument (the y_true slot) and labels as its second (the y_pred
slot), the sum divided by the batch size, plus weight_decay times
tf.nn.l2_loss (half the squared norm) of each trainable variable. -/
noncomputable def codeStepLoss (n M P : Nat) (pred lab : Nat → Nat → ℝ)
    (psize : Nat → Nat) (params : Nat → Nat → ℝ) (wd : ℝ) : ℝ :=
  ((∑ i ∈ Finset.range n, (pred i 0 - lab i 0) ^ 2) +
      ∑ i ∈ Finset.range n,
        categoricalCrossentropy M (fun j => pred i (1 + j)) (fun j => lab i (1 + j))) / n +
    ∑ v ∈ Finset.range P, wd * (∑ t ∈ Finset.range (psize v), params v t ^ 2) / 2

/-- The loss the spec prescribes (section 4.4): mean over the batch of the
squared value error plus the cross-entropy of the predicted policy against
the stored improved-policy label, plus weight_decay times half the squared
parameter norms. -/
noncomputable def specStepLoss (n M P : Nat) (pred lab : Nat → Nat → ℝ)
    (psize : Nat → Nat) (params : Nat → Nat → ℝ) (wd : ℝ) : ℝ :=
  (∑ i ∈ Finset.range n, ((pred i 0 - lab i 0) ^ 2 +
      categoricalCrossentropy M (fun j => lab i (1 + j)) (fun j => pred i (1 + j)))) / n +
    wd * ∑ v ∈ Finset.range P, (∑ t ∈ Finset.range (psize v), params v t ^ 2) / 2

/-- C6. The two losses differ: on a batch of one example with predicted
policy (1/2, 1/2), improved-policy label (1, 0), equal value slots and no
parameters, the code loss is 0 while the spec loss is log 2, because line
192 passes predictions where categorical_crossentropy expects y_true and
labels where it expects y_pred. (The repository test a3mcts/test.py calls
the same function with y_true = labels, y_pred = predictions.) -/
theorem loss_cross_entropy_swapped :
    codeStepLoss 1 2 0 (fun _ j => if j = 0 then 0 else 1 / 2)
        (fun _ j => if j = 1 then 1 else 0) (fun _ => 0) (fun _ _ => 0) (1 / 1000) ≠
      specStepLoss 1 2 0 (fun _ j => if j = 0 then 0 else 1 / 2)
        (fun _ j => if j = 1 then 1 else 0) (fun _ => 0) (fun _ _ => 0) (1 / 1000) := by
  have hlog : Real.log (1 / 2) < 0 := Real.log_neg (by norm_num) (by norm_num)
  unfold codeStepLoss specStepLoss categoricalCrossentropy
  simp [Finset.sum_range_succ, Real.log_zero, Real.log_one]
  intro h
  have h2 : (0 : ℝ) < Real.log 2 := Real.log_pos (by norm_num)
  linarith

/-! ## Shutdown (src/alpha3/train.py lines 220-231) -/

/-- The names bound by assignment in the body of train up to the shutdown
block (lines 67-228): the parameter, the top-level assignments, and every
loop and with target. Line 86 binds the tuple of worker processes to the
name process (singular); no statement of train binds the name
processes. -/
def trainAssignedNames : List String :=
  ["config", "started_at", "log", "model", "position", "label_shape", "buffer",
   "optimizer", "pipes", "process", "step", "games_played", "states_for_evaluation",
   "wins", "losses", "draws", "pipe", "buffered_pipe", "command", "args",
   "game_state", "score", "history", "i", "search_probabilities", "label", "move",
   "probability", "evaluation_features", "evaluations", "state", "av", "priors",
   "denom", "expansion", "learning_rate", "threshold", "lr", "features", "labels",
   "tape", "predictions", "loss", "gradients", "predicted_outcomes", "min_po",
   "avg_po", "max_po", "path", "waiting_at"]

/-- The iterable referenced by the join loop at line 230:
for process in processes. -/
def shutdownJoinIterable : String := "processes"

/-- Python name resolution for the shutdown block: an unbound name raises
NameError at the reference. -/
def resolveName (env : List String) (n : String) : Except String Unit :=
  if n ∈ env then Except.ok ()
  else Except.error ("NameError: name " ++ n ++ " is not defined")

/-- C9. After the training loop, lines 222-224 do send TERMINATE followed
by a flush on every worker pipe, but the join loop at line 230 iterates
the name processes, which no statement of train binds (line 86 binds the
process tuple to the singular name process), so the block raises NameError:
no join completes, and train contains no kill call for stragglers at
all. -/
theorem shutdown_name_error :
    resolveName trainAssignedNames shutdownJoinIterable =
      Except.error "NameError: name processes is not defined" := by
  rfl

end Alpha3
